import Mathlib

/-!
Formal model of the audio feature pipeline in `src/audio.py`
(End-to-end-ASR-Pytorch fork).

The Python code computes over float32 tensors; the model uses exact real
(`ℝ`), complex (`ℂ`) and rational (`ℚ`) arithmetic as the idealisation of
floating point.  Waveforms are represented as index functions `ℕ → ℝ`
together with an explicit length parameter; spectrogram matrices as
`ℕ → ℕ → ℂ` (bin, frame) index functions.  Fallible operations (tensor
shape or padding errors, Python exceptions) are modelled with `Option` /
`Except`.
-/

open Finset

/-! ## Frequency scale (audio.py "hz_to_mel", lines 667-719, scalar branch) -/

/-- audio.py line 701: `f_sp = 200.0 / 3`. -/
noncomputable def f_sp : ℝ := 200 / 3

/-- audio.py line 707: `min_log_hz = 1000.0`. -/
noncomputable def min_log_hz : ℝ := 1000

/-- audio.py line 708: `min_log_mel = (min_log_hz - f_min) / f_sp` with `f_min = 0`. -/
noncomputable def min_log_mel : ℝ := (min_log_hz - 0) / f_sp

/-- audio.py line 709: `logstep = np.log(6.4) / 27.0`. -/
noncomputable def logstep : ℝ := Real.log 6.4 / 27

/-- audio.py lines 667-719, `hz_to_mel` (scalar path).  HTK branch:
`2595.0 * np.log10(1.0 + frequencies / 700.0)`.  Slaney branch: linear
`(frequencies - f_min) / f_sp`, overridden by the log formula when
`frequencies >= min_log_hz`. -/
noncomputable def hz_to_mel (f : ℝ) (htk : Bool) : ℝ :=
  if htk then 2595 * Real.logb 10 (1 + f / 700)
  else if min_log_hz ≤ f then min_log_mel + Real.log (f / min_log_hz) / logstep
  else (f - 0) / f_sp

/-- audio.py lines 722-773, `mel_to_hz` (scalar path).  HTK branch:
`700.0 * (10.0**(mels / 2595.0) - 1.0)`.  Slaney branch: linear
`f_min + f_sp * mels`, overridden by
`min_log_hz * np.exp(logstep * (mels - min_log_mel))` when
`mels >= min_log_mel`. -/
noncomputable def mel_to_hz (m : ℝ) (htk : Bool) : ℝ :=
  if htk then 700 * ((10 : ℝ) ^ (m / 2595) - 1)
  else if min_log_mel ≤ m then min_log_hz * Real.exp (logstep * (m - min_log_mel))
  else 0 + f_sp * m

/-! ## Log-amplitude normalisation (audio.py lines 308-315) -/

/-- audio.py lines 308-309: `_amp_to_db(x) = 20 * torch.log10(torch.clamp(x, min=1e-5))`.
`torch.clamp(x, min=c)` is `max x c`. -/
noncomputable def _amp_to_db (x : ℝ) : ℝ := 20 * Real.logb 10 (max x (1 / 100000))

/-- audio.py lines 310-311: `_db_to_amp(x) = 10 ** (0.05 * x)`. -/
noncomputable def _db_to_amp (x : ℝ) : ℝ := (10 : ℝ) ^ (0.05 * x)

/-- `torch.clamp(v, min=0, max=1)`. -/
noncomputable def clamp01 (v : ℝ) : ℝ := min 1 (max 0 v)

/-- audio.py lines 312-313:
`_normalize(feat) = torch.clamp((feat - min_level_db) / -min_level_db, min=0, max=1)`. -/
noncomputable def _normalize (min_level_db : ℝ) (feat : ℝ) : ℝ :=
  clamp01 ((feat - min_level_db) / (-min_level_db))

/-- audio.py lines 314-315:
`_denormalize(feat) = min_level_db + torch.clamp(feat, min=0, max=1) * -min_level_db`. -/
noncomputable def _denormalize (min_level_db : ℝ) (feat : ℝ) : ℝ :=
  min_level_db + clamp01 feat * (-min_level_db)

/-- audio.py lines 235-238: each spectral entry `x` is sent through
`_amp_to_db`, shifted by `ref_level_db`, then `_normalize`d.  This is the
per-entry value written into the emitted feature matrix. -/
noncomputable def emittedFeature (ref_level_db min_level_db x : ℝ) : ℝ :=
  _normalize min_level_db (_amp_to_db x - ref_level_db)

/-! ## CMVN (audio.py lines 15-38) -/

/-- Constructed state of the `CMVN` module: the stored `mode`, `dim`, `eps`. -/
structure CMVNState where
  mode : String
  dim : ℕ
  eps : ℝ

/-- audio.py lines 19-30, `CMVN.__init__`: raises `NotImplementedError`
unless `mode == "global"`, otherwise stores the fields. -/
def CMVN_init (mode : String) (dim : ℕ) (eps : ℝ) : Except String CMVNState :=
  if mode ≠ "global" then
    Except.error "Only support global mean variance normalization."
  else
    Except.ok ⟨mode, dim, eps⟩

/-- Mean of a list of reals (`x.mean(dim)` along the normalised dimension). -/
noncomputable def listMean (l : List ℝ) : ℝ := l.sum / l.length

/-- Unbiased standard deviation of a list of reals (`x.std(dim)`,
torch default `unbiased=True`). -/
noncomputable def listStd (l : List ℝ) : ℝ :=
  Real.sqrt ((l.map (fun v => (v - listMean l) ^ 2)).sum / (l.length - 1))

/-- audio.py lines 32-35, `CMVN.forward`: when `self.mode == "global"`
returns `(x - x.mean(dim)) / (eps + x.std(dim))`; any other mode falls off
the end of the function and yields Python `None` (modelled `none`).  One
slice of the tensor along the normalised dimension is modelled as a list. -/
noncomputable def CMVN_forward (st : CMVNState) (x : List ℝ) : Option (List ℝ) :=
  if st.mode = "global" then
    some (x.map (fun v => (v - listMean x) / (st.eps + listStd x)))
  else
    none

/-! ## Mel filterbank (audio.py lines 431-577) -/

/-- `np.linspace(a, b, num)` with `endpoint=True`, as an index function. -/
noncomputable def linspace (a b : ℝ) (num i : ℕ) : ℝ :=
  if num ≤ 1 then a else a + i * (b - a) / ((num : ℝ) - 1)

/-- audio.py lines 548-577, `fft_frequencies`:
`np.linspace(0, sr/2, 1 + n_fft//2, endpoint=True)`. -/
noncomputable def fft_frequencies (sr : ℝ) (n_fft j : ℕ) : ℝ :=
  linspace 0 (sr / 2) (1 + n_fft / 2) j

/-- audio.py lines 580-664, `mel_frequencies`: mel-uniform points between
`hz_to_mel fmin` and `hz_to_mel fmax`, converted back to Hz.  Note the
returned values are frequencies in Hz. -/
noncomputable def mel_frequencies (n_mels : ℕ) (fmin fmax : ℝ) (htk : Bool) (i : ℕ) : ℝ :=
  mel_to_hz (linspace (hz_to_mel fmin htk) (hz_to_mel fmax htk) n_mels i) htk

/-- audio.py lines 511-535, the weight computation of `create_mel_filterbank`
(librosa `filters.mel`): triangular ramps
`lower = -(mel_f[i] - fftfreqs[j]) / fdiff[i]`,
`upper = (mel_f[i+2] - fftfreqs[j]) / fdiff[i+1]`,
`weights[i][j] = max(0, min(lower, upper))`, then (when `norm == 1`)
multiplied by `enorm[i] = 2.0 / (mel_f[i+2] - mel_f[i])` — widths taken on
the Hz-valued `mel_f` array. -/
noncomputable def melWeights (sr : ℝ) (n_fft n_mels : ℕ) (fmin fmax : ℝ)
    (htk norm1 : Bool) (i j : ℕ) : ℝ :=
  let mel_f := mel_frequencies (n_mels + 2) fmin fmax htk
  let lower := (fft_frequencies sr n_fft j - mel_f i) / (mel_f (i + 1) - mel_f i)
  let upper := (mel_f (i + 2) - fft_frequencies sr n_fft j) / (mel_f (i + 2) - mel_f (i + 1))
  let w := max 0 (min lower upper)
  if norm1 then w * (2 / (mel_f (i + 2) - mel_f i)) else w

open Classical in
/-- audio.py lines 431-545, `create_mel_filterbank` as a fallible
constructor.  `none` models a raised Python exception: the explicit
`ParameterError` for an unsupported `norm` (the IEEE `np.inf` option is
outside the real-number model), the `ValueError` of `np.zeros` on a
negative band count, and the `NameError` raised on the warning path
(line 540 references `warnings`, which audio.py never imports).
`fmax = none` models the Python default `fmax = sr / 2`.  No check of
`n_mels ≤ 0` or `fmin ≥ fmax` exists. -/
noncomputable def create_mel_filterbank (sr : ℝ) (n_fft : ℕ) (n_mels : ℤ) (fmin : ℝ)
    (fmax : Option ℝ) (htk : Bool) (norm : Option ℝ) : Option (ℕ → ℕ → ℝ) :=
  let fm := fmax.getD (sr / 2)
  if ¬(norm = none ∨ norm = some 1) then none
  else if n_mels < 0 then none
  else
    let nm := n_mels.toNat
    let area : Bool := if norm = some 1 then true else false
    let W := melWeights sr n_fft nm fmin fm htk area
    if ∀ i < nm, mel_frequencies (nm + 2) fmin fm htk i = 0 ∨
        ∃ j < 1 + n_fft / 2, 0 < W i j then some W
    else none

/-! ## Delta filters (audio.py lines 41-97) -/

/-- Zero-extended list access at a signed index. -/
def getZ (l : List ℚ) (i : ℤ) : ℚ := if 0 ≤ i then l.getD i.toNat 0 else 0

/-- One step of audio.py lines 76-87 (`_create_filters` loop body): from the
previous kernel build a kernel of length `len(prev) + 2*ws`.  The
accumulation `curr[j+k+curr_offset] += j * prev[k+prev_offset]` over
`j ∈ [-ws, ws]` is written in closed form: entry `p` receives
`Σ_j j * prev[p - j - ws]` (with `prev` zero-extended), divided by the
regression normaliser `Σ_j j²`; the loop variable is shifted to
`jj = j + ws ∈ [0, 2*ws]`, so the coefficient is `jj - ws` and the `prev`
index `p - j - ws = p - jj`. -/
def nextScale (ws : ℕ) (prev : List ℚ) : List ℚ :=
  let normalizer : ℚ := ∑ jj in Finset.range (2 * ws + 1), ((jj : ℚ) - ws) * ((jj : ℚ) - ws)
  (List.range (prev.length + 2 * ws)).map fun p =>
    (∑ jj in Finset.range (2 * ws + 1), ((jj : ℚ) - ws) * getZ prev ((p : ℤ) - jj)) /
      normalizer

/-- audio.py lines 74-87: the list `scales`, starting from `[[1.0]]` and
appending one synthesized kernel per derivative order. -/
def delta_scales : ℕ → ℕ → List (List ℚ)
  | 0, _ => [[1]]
  | o + 1, ws => delta_scales o ws ++ [nextScale ws ((delta_scales o ws).getLastD [1])]

/-- Length of the highest-order kernel (`max_len` in audio.py line 89). -/
def deltaFiltLen (order ws : ℕ) : ℕ := ((delta_scales order ws).getLastD []).length

/-- audio.py lines 89-94: every kernel zero-padded symmetrically to
`max_len` (`(max_len - len)//2` zeros on each side), read as entry `k` of
filter channel `c`. -/
def _create_filters (order ws c k : ℕ) : ℚ :=
  let scales := delta_scales order ws
  let sc := scales.getD c []
  getZ sc ((k : ℤ) - ((deltaFiltLen order ws - sc.length) / 2 : ℕ))

/-- audio.py lines 60-71, `Delta.forward` (batch=False): the feature matrix
(shape `1 × T × MEL`) is unsqueezed to `1 × 1 × T × MEL` and convolved by
`F.conv2d` with the `(order+1) × 1 × 1 × max_len` filter tensor and padding
`(0, (max_len-1)//2)`.  The kernels therefore slide along the LAST axis —
the feature (mel) axis — with zero padding; `conv2d` is cross-correlation:
`out[c][t][m] = Σ_k filters[c][k] * x[t][m + k - pd]`. -/
def Delta_forward (order ws T M : ℕ) (x : ℕ → ℕ → ℚ) (c t m : ℕ) : ℚ :=
  let len := deltaFiltLen order ws
  let pd := (len - 1) / 2
  ∑ k in Finset.range len,
    _create_filters order ws c k *
      (if pd ≤ m + k ∧ m + k - pd < M then x t (m + k - pd) else 0)

/-- Modelled from the spec: the delta application the spec (section 4.5)
and claim C6 describe — the same convolution bank applied along the TIME
axis, independently per feature dimension.  This definition follows the
words of the spec and is compared against `Delta_forward` (the code). -/
def Delta_forward_time_axis (order ws T M : ℕ) (x : ℕ → ℕ → ℚ) (c t m : ℕ) : ℚ :=
  let len := deltaFiltLen order ws
  let pd := (len - 1) / 2
  ∑ k in Finset.range len,
    _create_filters order ws c k *
      (if pd ≤ t + k ∧ t + k - pd < T then x (t + k - pd) m else 0)

/-- Concrete `1 × 1 × 5` feature input (T = 1 frame, 5 mel bins) with a
single 1 at feature index 2. -/
def deltaDemoInput : ℕ → ℕ → ℚ := fun t m => if t = 0 ∧ m = 2 then 1 else 0

/-! ## Short-time transforms (audio.py lines 324-350), the forward
feature path (lines 193-240) and Griffin-Lim (lines 12, 279-298) -/

/-- Single-reflection index used by `torch.nn.functional.pad(..., mode="reflect")`:
for an index `j` left of the signal the sample `x[-j]` is read, for `j` right
of it the sample `x[2(L-1)-j]`.  torch requires the padding amount to be
strictly less than the signal length, which makes the single reflection
total on the padded range. -/
def reflIdx (L : ℕ) (j : ℤ) : ℤ :=
  if j < 0 then -j else if (L : ℤ) ≤ j then 2 * ((L : ℤ) - 1) - j else j

/-- The reflect-padded signal, read at padded position `i` (`p` zeros of
padding on the left conceptually replaced by reflected samples). -/
def reflectPadFn (L : ℕ) (x : ℕ → ℝ) (p i : ℕ) : ℝ :=
  x (reflIdx L ((i : ℤ) - p)).toNat

/-- `torch.stft` with `window=None`: a rectangular window of `win` ones,
zero-padded on both sides to length `n_fft` (left pad `(n_fft - win) // 2`). -/
def rectWindow (n_fft win n : ℕ) : ℝ :=
  if (n_fft - win) / 2 ≤ n ∧ n < (n_fft - win) / 2 + win then 1 else 0

/-- Frame `m`, in-frame position `n` of the windowed, center-padded signal
(`torch.stft` extracts frames of length `n_fft` at stride `hop` from the
signal reflect-padded by `n_fft // 2` on each side and multiplies by the
padded window). -/
def stftFrame (n_fft hop : ℕ) (w : ℕ → ℝ) (L : ℕ) (x : ℕ → ℝ) (m n : ℕ) : ℝ :=
  w n * reflectPadFn L x (n_fft / 2) (m * hop + n)

/-- Discrete Fourier transform of an `N`-point sequence, bin `k`. -/
noncomputable def dftPoint (N : ℕ) (v : ℕ → ℂ) (k : ℕ) : ℂ :=
  ∑ n in Finset.range N, v n * Complex.exp (-(2 * Real.pi * Complex.I) * k * n / N)

/-- The complex STFT matrix (bin `k`, frame `m`) of `torch.stft(x, n_fft,
hop_length, win_length, window, center=True, pad_mode="reflect",
normalized=False, onesided=True)`; the one-sided output keeps the bins
`k ≤ n_fft/2`. -/
noncomputable def stftMat (n_fft hop : ℕ) (w : ℕ → ℝ) (L : ℕ) (x : ℕ → ℝ) (k m : ℕ) : ℂ :=
  dftPoint n_fft (fun n => ((stftFrame n_fft hop w L x m n : ℝ) : ℂ)) k

/-- Number of frames produced by `torch.stft` for a length-`L` input with
centering: `1 + (L + 2*(n_fft//2) - n_fft) // hop`. -/
def numFrames (n_fft hop L : ℕ) : ℕ := 1 + (L + 2 * (n_fft / 2) - n_fft) / hop

/-- audio.py lines 324-336, `_stft`: `torch.stft` with the module config and
`window=None` (rectangular).  Reflect center-padding by `n_fft//2` requires
`n_fft//2 < L` (torch: "Padding size should be less than the corresponding
input dimension"); otherwise the call raises, modelled as `none`. -/
noncomputable def _stft (n_fft win hop L : ℕ) (x : ℕ → ℝ) : Option (ℕ → ℕ → ℂ) :=
  if n_fft / 2 < L then some (stftMat n_fft hop (rectWindow n_fft win) L x) else none

/-- Reconstruction of the full two-sided spectrum from a one-sided row, by
conjugate symmetry (`torchaudio.functional.istft` on `onesided=True` input). -/
noncomputable def fullSpec (N : ℕ) (S : ℕ → ℂ) (k : ℕ) : ℂ :=
  if k ≤ N / 2 then S k else (starRingEnd ℂ) (S (N - k))

/-- Inverse DFT of an `N`-point spectrum, position `n`. -/
noncomputable def idftPoint (N : ℕ) (V : ℕ → ℂ) (n : ℕ) : ℂ :=
  (∑ k in Finset.range N, V k * Complex.exp (2 * Real.pi * Complex.I * k * n / N)) / N

/-- Time-domain frame `m`, position `n` recovered by the inverse real FFT
inside `torchaudio.functional.istft` (conjugate-symmetric extension of the
one-sided spectrum, inverse transform, real part). -/
noncomputable def iframe (N : ℕ) (S : ℕ → ℕ → ℂ) (m n : ℕ) : ℝ :=
  (idftPoint N (fullSpec N (fun k => S k m)) n).re

/-- Overlap-add numerator of `istft`: each inverse frame is multiplied by
the analysis window and accumulated at its hop offset. -/
noncomputable def olaNum (N hop : ℕ) (w : ℕ → ℝ) (T : ℕ) (S : ℕ → ℕ → ℂ) (t : ℕ) : ℝ :=
  ∑ m in Finset.range T,
    if m * hop ≤ t ∧ t - m * hop < N then w (t - m * hop) * iframe N S m (t - m * hop) else 0

/-- Overlap-add window-square envelope of `istft` (the normaliser). -/
noncomputable def olaDen (N hop : ℕ) (w : ℕ → ℝ) (T t : ℕ) : ℝ :=
  ∑ m in Finset.range T,
    if m * hop ≤ t ∧ t - m * hop < N then (w (t - m * hop)) ^ 2 else 0

/-- Output length of `torchaudio.functional.istft` with `center=True` and no
`length` argument: `n_fft + hop*(T-1)` minus the `n_fft//2` cropped from
each side. -/
def istftLen (N hop T : ℕ) : ℕ := N + hop * (T - 1) - 2 * (N / 2)

/-- `istft` output sample `t`: overlap-add divided by the window-square
envelope, then the center padding cropped. -/
noncomputable def istftFn (N hop : ℕ) (w : ℕ → ℝ) (T : ℕ) (S : ℕ → ℕ → ℂ) (t : ℕ) : ℝ :=
  olaNum N hop w T S (t + N / 2) / olaDen N hop w T (t + N / 2)

/-- audio.py lines 338-350, `_istft`: `torchaudio.functional.istft` with the
module config and `window=None` (rectangular), for a `T`-frame one-sided
spectrogram. -/
noncomputable def _istft (n_fft win hop T : ℕ) (S : ℕ → ℕ → ℂ) : ℕ → ℝ :=
  istftFn n_fft hop (rectWindow n_fft win) T S

/-- Number of analysis frames whose (rectangular) window covers padded
position `t` — the value of the `istft` window-square envelope there. -/
def coverCount (N win hop T t : ℕ) : ℕ :=
  ((Finset.range T).filter (fun m =>
    (m * hop ≤ t ∧ t - m * hop < N) ∧
    ((N - win) / 2 ≤ t - m * hop ∧ t - m * hop < (N - win) / 2 + win))).card

/-! ## Forward feature path (audio.py lines 193-240) -/

def EAF_n_fft : ℕ := 1025

noncomputable def hannPadded (n_fft win n : ℕ) : ℝ :=
  if (n_fft - win) / 2 ≤ n ∧ n < (n_fft - win) / 2 + win then
    1 / 2 * (1 - Real.cos (2 * Real.pi * ((n - (n_fft - win) / 2 : ℕ)) / win))
  else 0

noncomputable def _preemphasis (coeff : ℝ) (x : ℕ → ℝ) : ℕ → ℝ :=
  fun t => if t = 0 then x 0 else x t - coeff * x (t - 1)

noncomputable def to_specgram (win hop L : ℕ) (x : ℕ → ℝ) (k m : ℕ) : ℝ :=
  Complex.abs (stftMat EAF_n_fft hop (hannPadded EAF_n_fft win) L x k m) ^ 2

noncomputable def forwardFedValue (coeff : ℝ) (win hop L : ℕ) (x : ℕ → ℝ) (k m : ℕ) : ℝ :=
  Real.sqrt (to_specgram win hop L (_preemphasis coeff x) k m)

/-! ## Griffin-Lim (audio.py lines 12, 279-298) -/

def GRIFFIN_LIM_ITER : ℕ := 50

noncomputable def _to_complex (mag phase : ℕ → ℕ → ℝ) (k m : ℕ) : ℂ :=
  (mag k m * Real.cos (phase k m) : ℝ) + (mag k m * Real.sin (phase k m) : ℝ) * Complex.I

noncomputable def _get_phase (S : ℕ → ℕ → ℂ) (k m : ℕ) : ℝ := (S k m).arg

noncomputable def glStep (n_fft win hop : ℕ) (mag : ℕ → ℕ → ℝ)
    (st : Option (ℕ × (ℕ → ℝ))) : Option (ℕ × (ℕ → ℝ)) :=
  st.bind fun p =>
    match _stft n_fft win hop p.1 p.2 with
    | none => none
    | some S =>
        some (istftLen n_fft hop (numFrames n_fft hop p.1),
          _istft n_fft win hop (numFrames n_fft hop p.1) (_to_complex mag (_get_phase S)))

noncomputable def _griffin_lim (n_fft win hop Tm : ℕ) (specgram phase0 : ℕ → ℕ → ℝ) :
    Option (ℕ × (ℕ → ℝ)) :=
  (List.range 30).foldl
    (fun st _ => glStep n_fft win hop (fun k m => |specgram k m|) st)
    (some (istftLen n_fft hop Tm,
      _istft n_fft win hop Tm (_to_complex (fun k m => |specgram k m|) phase0)))

/-! ## Theorems for claims C4, C7, C10, C9 -/

/-- C4: for every frequency `f ≥ 0` and both the HTK and Slaney schemes,
`mel_to_hz (hz_to_mel f) = f` exactly (exact-real idealisation of the
floating tolerance), and the composed map is continuous on `[0, ∞)`, in
particular across the 1000 Hz piecewise boundary of the Slaney scheme. -/
theorem mel_hz_roundtrip :
    (∀ (htk : Bool) (f : ℝ), 0 ≤ f → mel_to_hz (hz_to_mel f htk) htk = f) ∧
    (∀ htk : Bool, ContinuousOn (fun f => mel_to_hz (hz_to_mel f htk) htk) (Set.Ici 0)) := by
  have hmlm : min_log_mel = 15 := by
    simp only [min_log_mel, min_log_hz, f_sp]
    norm_num
  have hls : 0 < logstep := by
    have : (0 : ℝ) < Real.log 6.4 := Real.log_pos (by norm_num)
    simp only [logstep]
    positivity
  have hround : ∀ (htk : Bool) (f : ℝ), 0 ≤ f → mel_to_hz (hz_to_mel f htk) htk = f := by
    intro htk f hf
    cases htk with
    | true =>
      simp only [hz_to_mel, mel_to_hz, if_pos]
      have h1 : (0 : ℝ) < 1 + f / 700 := by positivity
      have hx : (2595 : ℝ) * Real.logb 10 (1 + f / 700) / 2595 =
          Real.logb 10 (1 + f / 700) := by ring
      rw [hx, Real.rpow_logb (by norm_num) (by norm_num) h1]
      ring
    | false =>
      by_cases hc : min_log_hz ≤ f
      · have h1000 : (0 : ℝ) < min_log_hz := by norm_num [min_log_hz]
        have hfpos : 0 < f := lt_of_lt_of_le h1000 hc
        have hq : (0 : ℝ) < f / min_log_hz := div_pos hfpos h1000
        have hlog : 0 ≤ Real.log (f / min_log_hz) := by
          apply Real.log_nonneg
          rw [le_div_iff₀ h1000]
          simpa using hc
        have hmel : min_log_mel ≤ min_log_mel + Real.log (f / min_log_hz) / logstep := by
          have : 0 ≤ Real.log (f / min_log_hz) / logstep := div_nonneg hlog hls.le
          linarith
        simp only [hz_to_mel, Bool.false_eq_true, if_false, if_pos hc]
        simp only [mel_to_hz, Bool.false_eq_true, if_false, if_pos hmel]
        rw [add_sub_cancel_left, mul_div_cancel₀ _ (ne_of_gt hls), Real.exp_log hq]
        rw [← mul_div_assoc]
        exact mul_div_cancel_left₀ f (ne_of_gt h1000)
      · push_neg at hc
        have hmel : ¬ min_log_mel ≤ (f - 0) / f_sp := by
          rw [hmlm]
          push_neg
          rw [div_lt_iff₀ (by norm_num [f_sp] : (0:ℝ) < f_sp)]
          simp only [f_sp, min_log_hz] at hc ⊢
          nlinarith
        simp only [hz_to_mel, Bool.false_eq_true, if_false, if_neg (not_le.mpr hc)]
        simp only [mel_to_hz, Bool.false_eq_true, if_false, if_neg hmel]
        simp only [f_sp]
        field_simp
        ring
  refine ⟨hround, ?_⟩
  intro htk
  exact continuous_id.continuousOn.congr (fun g hg => hround htk g hg)

/-- Witness for C4 at the concrete frequency 440 Hz (Slaney scheme). -/
theorem mel_hz_roundtrip_witness : mel_to_hz (hz_to_mel 440 false) false = 440 :=
  mel_hz_roundtrip.1 false 440 (by norm_num)

/-- C7: the emitted feature value is
`clamp((20*log10(max x 1e-5) - ref_level_db - min_level_db) / (-min_level_db), 0, 1)`;
every emitted entry lies in `[0, 1]`; and the argument handed to the
logarithm is never below `1e-5`. -/
theorem normalize_bounds :
    ∀ ref_level_db min_level_db x : ℝ,
      emittedFeature ref_level_db min_level_db x =
        clamp01 ((20 * Real.logb 10 (max x (1 / 100000)) - ref_level_db - min_level_db) /
          (-min_level_db)) ∧
      0 ≤ emittedFeature ref_level_db min_level_db x ∧
      emittedFeature ref_level_db min_level_db x ≤ 1 ∧
      (1 / 100000 : ℝ) ≤ max x (1 / 100000) := by
  intro ref mdb x
  refine ⟨?_, ?_, ?_, le_max_right _ _⟩
  · simp only [emittedFeature, _normalize, _amp_to_db]
  · simp only [emittedFeature, _normalize, clamp01]
    exact le_min (by norm_num) (le_max_left _ _)
  · simp only [emittedFeature, _normalize, clamp01]
    exact min_le_left _ _

/-- C10: for `min_level_db < 0` and `x ∈ [0, 1]`, re-normalising a
de-normalised value is the identity (exact arithmetic): the
de-normalisation step loses no information on in-range features. -/
theorem normalize_denormalize_id (min_level_db x : ℝ)
    (hdb : min_level_db < 0) (h0 : 0 ≤ x) (h1 : x ≤ 1) :
    _normalize min_level_db (_denormalize min_level_db x) = x := by
  have hcl : clamp01 x = x := by
    simp only [clamp01]
    rw [max_eq_right h0, min_eq_right h1]
  simp only [_normalize, _denormalize, hcl]
  rw [add_sub_cancel_left]
  rw [mul_div_assoc, div_self (by linarith : (-min_level_db) ≠ 0), mul_one, hcl]

/-- Witness for C10 at `min_level_db = -100`, `x = 1/2`. -/
theorem normalize_denormalize_id_witness :
    _normalize (-100) (_denormalize (-100) (1/2)) = 1/2 :=
  normalize_denormalize_id (-100) (1/2) (by norm_num) (by norm_num) (by norm_num)

/-- C9: constructing `CMVN` with any mode other than `"global"` fails with
the NotImplementedError at construction time (and only then: the error is
equivalent to the mode being non-global), and the per-call `forward` of any
successfully constructed state always produces a value, never a mode
error. -/
theorem cmvn_mode_guard :
    ∀ (mode : String) (dim : ℕ) (eps : ℝ),
      ((∃ s, CMVN_init mode dim eps = Except.error s) ↔ mode ≠ "global") ∧
      (∀ (st : CMVNState) (x : List ℝ),
        CMVN_init mode dim eps = Except.ok st → (CMVN_forward st x).isSome = true) := by
  intro mode dim eps
  constructor
  · constructor
    · intro ⟨s, hs⟩ hmode
      simp only [CMVN_init, hmode, ne_eq, not_true_eq_false, if_false] at hs
      exact Except.noConfusion hs
    · intro hmode
      refine ⟨"Only support global mean variance normalization.", ?_⟩
      simp only [CMVN_init, if_pos hmode]
  · intro st x hok
    by_cases hmode : mode = "global"
    · have hst : st.mode = "global" := by
        simp only [CMVN_init, hmode, ne_eq, not_true_eq_false, if_false] at hok
        cases hok
        rfl
      simp [CMVN_forward, hst]
    · simp only [CMVN_init, if_pos hmode] at hok
      exact Except.noConfusion hok

/-- Witness for C9: `"global"` constructs successfully and its `forward`
returns a value on a concrete input. -/
theorem cmvn_mode_guard_witness :
    (CMVN_forward ⟨"global", 2, 1 / 10 ^ 10⟩ [1, 0]).isSome = true :=
  (cmvn_mode_guard "global" 2 (1 / 10 ^ 10)).2 ⟨"global", 2, 1 / 10 ^ 10⟩ [1, 0]
    (by simp [CMVN_init])

/-! ## Helper computations for the concrete filterbank configuration
sr = 2000, n_fft = 8, n_mels = 3, fmin = 0, fmax = 1000 (Slaney scheme),
chosen so that every mel point lies in the linear region and all values are
rational. -/

lemma hz_to_mel_zero : hz_to_mel 0 false = 0 := by
  simp only [hz_to_mel, Bool.false_eq_true, if_false]
  rw [if_neg (by norm_num [min_log_hz])]
  simp [f_sp]

lemma hz_to_mel_1000 : hz_to_mel 1000 false = 15 := by
  simp only [hz_to_mel, Bool.false_eq_true, if_false]
  rw [if_pos (by norm_num [min_log_hz])]
  norm_num [min_log_hz, min_log_mel, f_sp, Real.log_one]

lemma hz_to_mel_500 : hz_to_mel 500 false = 15 / 2 := by
  simp only [hz_to_mel, Bool.false_eq_true, if_false]
  rw [if_neg (by norm_num [min_log_hz])]
  norm_num [f_sp]

lemma mel_to_hz_linear (m : ℝ) (h : m < 15) : mel_to_hz m false = 200 / 3 * m := by
  simp only [mel_to_hz, Bool.false_eq_true, if_false]
  rw [if_neg (by norm_num [min_log_mel, min_log_hz, f_sp]; exact h)]
  norm_num [f_sp]

lemma mel_to_hz_15 : mel_to_hz 15 false = 1000 := by
  simp only [mel_to_hz, Bool.false_eq_true, if_false]
  rw [if_pos (by norm_num [min_log_mel, min_log_hz, f_sp])]
  norm_num [min_log_hz, min_log_mel, f_sp, Real.exp_zero]

lemma mel_frequencies_demo (k : ℕ) (hk : k ≤ 3) :
    mel_frequencies 5 0 1000 false k = 250 * k := by
  have hl : ∀ i : ℕ, linspace (hz_to_mel 0 false) (hz_to_mel 1000 false) 5 i =
      i * (15 / 4) := by
    intro i
    rw [hz_to_mel_zero, hz_to_mel_1000]
    simp only [linspace]
    rw [if_neg (by norm_num)]
    push_cast
    ring
  interval_cases k
  · simp only [mel_frequencies, hl 0]
    rw [show ((0:ℕ) : ℝ) * (15 / 4) = 0 by norm_num, mel_to_hz_linear 0 (by norm_num)]
    norm_num
  · simp only [mel_frequencies, hl 1]
    rw [show ((1:ℕ) : ℝ) * (15 / 4) = 15 / 4 by norm_num,
      mel_to_hz_linear (15 / 4) (by norm_num)]
    norm_num
  · simp only [mel_frequencies, hl 2]
    rw [show ((2:ℕ) : ℝ) * (15 / 4) = 15 / 2 by norm_num,
      mel_to_hz_linear (15 / 2) (by norm_num)]
    norm_num
  · simp only [mel_frequencies, hl 3]
    rw [show ((3:ℕ) : ℝ) * (15 / 4) = 45 / 4 by norm_num,
      mel_to_hz_linear (45 / 4) (by norm_num)]
    norm_num

lemma fft_frequencies_demo (j : ℕ) : fft_frequencies 2000 8 j = 250 * j := by
  simp only [fft_frequencies, linspace]
  rw [if_neg (by norm_num)]
  push_cast
  ring

/-- Counterexample for C5: in the configuration `sr = 2000`, `n_fft = 8`,
`n_mels = 3`, `fmin = 0`, `fmax = 1000` (area normalisation), band 0 has
triangular weight 1 at FFT bin 1 and the code scales it by
`2 / (mel_f[2] - mel_f[0]) = 2/500 = 1/250` — the band width measured in
Hz — whereas the width of the same band measured in the mel domain is
`hzToMel(500) - hzToMel(0) = 7.5`, giving `2/7.5 = 4/15 ≠ 1/250`. -/
theorem area_norm_not_mel_width :
    melWeights 2000 8 3 0 1000 false true 0 1 = 1 / 250 ∧
    2 / (hz_to_mel (mel_frequencies 5 0 1000 false 2) false -
         hz_to_mel (mel_frequencies 5 0 1000 false 0) false) = 4 / 15 ∧
    (1 / 250 : ℝ) ≠ 4 / 15 := by
  refine ⟨?_, ?_, by norm_num⟩
  · simp only [melWeights]
    rw [mel_frequencies_demo 0 (by norm_num), mel_frequencies_demo 1 (by norm_num),
      mel_frequencies_demo 2 (by norm_num), fft_frequencies_demo 1]
    norm_num
  · rw [mel_frequencies_demo 0 (by norm_num), mel_frequencies_demo 2 (by norm_num)]
    rw [show (250 : ℝ) * (2:ℕ) = 500 by norm_num, show (250 : ℝ) * (0:ℕ) = 0 by norm_num]
    rw [hz_to_mel_500, hz_to_mel_zero]
    norm_num

/-- C5 (amended): under area normalisation each filterbank entry is the
triangular weight multiplied by `2 / (right - left)` where `right` and
`left` are the band edge frequencies in HZ (the `mel_frequencies` values),
not in the mel domain; every entry is non-negative whenever the band's Hz
edges are increasing. -/
theorem area_norm_hz_width (sr : ℝ) (n_fft n_mels : ℕ) (fmin fmax : ℝ) (htk : Bool)
    (i j : ℕ)
    (h : mel_frequencies (n_mels + 2) fmin fmax htk i <
         mel_frequencies (n_mels + 2) fmin fmax htk (i + 2)) :
    melWeights sr n_fft n_mels fmin fmax htk true i j =
      max 0 (min
        ((fft_frequencies sr n_fft j - mel_frequencies (n_mels + 2) fmin fmax htk i) /
         (mel_frequencies (n_mels + 2) fmin fmax htk (i + 1) -
          mel_frequencies (n_mels + 2) fmin fmax htk i))
        ((mel_frequencies (n_mels + 2) fmin fmax htk (i + 2) - fft_frequencies sr n_fft j) /
         (mel_frequencies (n_mels + 2) fmin fmax htk (i + 2) -
          mel_frequencies (n_mels + 2) fmin fmax htk (i + 1)))) *
      (2 / (mel_frequencies (n_mels + 2) fmin fmax htk (i + 2) -
            mel_frequencies (n_mels + 2) fmin fmax htk i)) ∧
    0 ≤ melWeights sr n_fft n_mels fmin fmax htk true i j := by
  constructor
  · simp only [melWeights, if_true]
  · simp only [melWeights, if_true]
    apply mul_nonneg (le_max_left 0 _)
    apply div_nonneg (by norm_num)
    linarith

/-- Witness for C5 at the concrete configuration: band 0 of the
`sr = 2000`, `n_fft = 8`, `n_mels = 3` filterbank is non-negative. -/
theorem area_norm_hz_width_witness :
    0 ≤ melWeights 2000 8 3 0 1000 false true 0 1 :=
  (area_norm_hz_width 2000 8 3 0 1000 false 0 1
    (by rw [mel_frequencies_demo 0 (by norm_num), mel_frequencies_demo 2 (by norm_num)]
        norm_num)).2

/-- Counterexample for C8: constructing the mel filterbank with band count
0 (≤ 0) succeeds — `create_mel_filterbank` silently returns an (empty,
0-row) filterbank instead of failing with a configuration error. -/
theorem mel_fb_zero_bands_accepted :
    (create_mel_filterbank 16000 1024 0 0 (some 8000) false (some 1)).isSome = true := by
  simp only [create_mel_filterbank]
  rw [if_neg (by simp), if_neg (by norm_num)]
  rw [if_pos (by intro i hi; exact absurd hi (by simp))]
  rfl

/-- C8 (amended): no construction-time validation of degenerate
configurations exists.  A band count of 0 silently yields an empty (0-row)
filterbank for every `fmin`, `fmax` — including `fmin ≥ fmax`; only a
NEGATIVE band count fails, and then with the array-allocation error, not a
configuration check. -/
theorem mel_fb_no_validation :
    (∀ (sr : ℝ) (n_fft : ℕ) (fmin fmax : ℝ) (htk : Bool),
      create_mel_filterbank sr n_fft 0 fmin (some fmax) htk (some 1) =
        some (melWeights sr n_fft 0 fmin fmax htk true)) ∧
    (∀ (sr : ℝ) (n_fft : ℕ) (fmin fmax : ℝ) (htk : Bool) (n : ℤ), n < 0 →
      create_mel_filterbank sr n_fft n fmin (some fmax) htk (some 1) = none) := by
  constructor
  · intro sr n_fft fmin fmax htk
    simp only [create_mel_filterbank]
    rw [if_neg (by simp), if_neg (by norm_num)]
    rw [if_pos (by intro i hi; exact absurd hi (by simp))]
    simp
  · intro sr n_fft fmin fmax htk n hn
    simp only [create_mel_filterbank]
    rw [if_neg (by simp), if_pos hn]

/-- Witness for C8 at the concrete negative band count -3: construction
fails (with the array-allocation error, not a configuration check). -/
theorem mel_fb_no_validation_witness :
    create_mel_filterbank 16000 1024 (-3) 0 (some 8000) false (some 1) = none :=
  mel_fb_no_validation.2 16000 1024 0 8000 false (-3) (by norm_num)

/-- C6 (code evaluated at the failing input): with `order = 1`,
`window_size = 2` and the `1 × 1 × 5` input that is constant in time
(T = 1) with a single 1 at feature index 2, the code's convolution
(`Delta_forward`, along the feature axis) produces the non-zero delta 1/10
at channel 1, position (0, 1), whereas the time-axis application the spec
describes produces 0 there: the code convolves along the feature (mel)
axis, not the time axis. -/
theorem delta_conv_feature_axis_eval :
    Delta_forward 1 2 1 5 deltaDemoInput 1 0 1 = 1 / 10 ∧
    Delta_forward_time_axis 1 2 1 5 deltaDemoInput 1 0 1 = 0 :=
  ⟨by with_unfolding_all rfl, by with_unfolding_all rfl⟩

/-! ## DFT inversion and the theorems for claims C1, C3, C2 -/

/-! ## DFT inversion -/

lemma sum_exp_rootsOfUnity (N : ℕ) (hN : 0 < N) (d : ℤ) :
    ∑ k in Finset.range N, Complex.exp (2 * Real.pi * Complex.I * d * k / N) =
      if (N : ℤ) ∣ d then (N : ℂ) else 0 := by
  have hNC : (N : ℂ) ≠ 0 := Nat.cast_ne_zero.mpr hN.ne'
  have h2pi : (2 * (Real.pi : ℂ) * Complex.I) ≠ 0 := by
    simp [Real.pi_ne_zero, Complex.I_ne_zero, Complex.ofReal_ne_zero]
  set z : ℂ := 2 * Real.pi * Complex.I * d / N with hz
  have hterm : ∀ k : ℕ,
      Complex.exp (2 * Real.pi * Complex.I * d * k / N) = Complex.exp z ^ k := by
    intro k
    rw [← Complex.exp_nat_mul]
    congr 1
    rw [hz]
    ring
  simp_rw [hterm]
  by_cases hdvd : (N : ℤ) ∣ d
  · obtain ⟨e, he⟩ := id hdvd
    have hz1 : Complex.exp z = 1 := by
      rw [hz, he]
      push_cast
      rw [show 2 * (Real.pi : ℂ) * Complex.I * ((N : ℂ) * (e : ℂ)) / (N : ℂ) =
          (e : ℂ) * (2 * (Real.pi : ℂ) * Complex.I) by field_simp; ring]
      exact Complex.exp_int_mul_two_pi_mul_I e
    rw [if_pos hdvd]
    simp [hz1]
  · have hzne : Complex.exp z ≠ 1 := by
      intro h1
      rw [Complex.exp_eq_one_iff] at h1
      obtain ⟨n, hn⟩ := h1
      apply hdvd
      rw [hz] at hn
      have h1 : 2 * (Real.pi : ℂ) * Complex.I * d = 2 * (Real.pi : ℂ) * Complex.I * (n * N) := by
        have h2 := congrArg (fun w => w * (N : ℂ)) hn
        simp only at h2
        rw [div_mul_cancel₀ _ hNC] at h2
        rw [h2]
        ring
      have h3 : (d : ℂ) = (n : ℂ) * (N : ℂ) := mul_left_cancel₀ h2pi h1
      have h4 : d = n * N := by exact_mod_cast h3
      exact ⟨n, by rw [h4]; ring⟩
    rw [geom_sum_eq hzne]
    have hzN : Complex.exp z ^ N = 1 := by
      rw [← Complex.exp_nat_mul, hz]
      rw [show (N : ℂ) * (2 * (Real.pi : ℂ) * Complex.I * d / N) =
          (d : ℂ) * (2 * (Real.pi : ℂ) * Complex.I) by field_simp; ring]
      exact Complex.exp_int_mul_two_pi_mul_I d
    rw [hzN, if_neg hdvd]
    simp

lemma dft_orthogonality (N : ℕ) (hN : 0 < N) (n m : ℕ) (hn : n < N) (hm : m < N) :
    ∑ k in Finset.range N,
      Complex.exp (-(2 * Real.pi * Complex.I) * k * m / N) *
        Complex.exp (2 * Real.pi * Complex.I * k * n / N) =
      if n = m then (N : ℂ) else 0 := by
  have hcomb : ∀ k : ℕ,
      Complex.exp (-(2 * Real.pi * Complex.I) * k * m / N) *
        Complex.exp (2 * Real.pi * Complex.I * k * n / N) =
      Complex.exp (2 * Real.pi * Complex.I * ((n : ℂ) - (m : ℂ)) * k / N) := by
    intro k
    rw [← Complex.exp_add]
    congr 1
    push_cast
    ring
  simp_rw [hcomb]
  have hkey := sum_exp_rootsOfUnity N hN ((n : ℤ) - m)
  push_cast at hkey
  rw [hkey]
  by_cases he : n = m
  · rw [if_pos (by rw [he, sub_self]; exact dvd_zero _), if_pos he]
  · rw [if_neg ?_, if_neg he]
    intro hdvd
    obtain ⟨c, hc⟩ := hdvd
    have hlt : ((n : ℤ) - m) < N := by omega
    have hgt : -(N : ℤ) < ((n : ℤ) - m) := by omega
    have hNZ : (0 : ℤ) < N := by exact_mod_cast hN
    have hc1 : c < 1 := by nlinarith
    have hc2 : -1 < c := by nlinarith
    have hc0 : c = 0 := by omega
    rw [hc0, mul_zero] at hc
    omega

lemma idft_dft (N : ℕ) (hN : 0 < N) (v : ℕ → ℂ) (n : ℕ) (hn : n < N) :
    idftPoint N (fun k => dftPoint N v k) n = v n := by
  unfold idftPoint dftPoint
  have hNC : (N : ℂ) ≠ 0 := Nat.cast_ne_zero.mpr hN.ne'
  have step1 : ∀ k : ℕ,
      (∑ m in Finset.range N, v m * Complex.exp (-(2 * Real.pi * Complex.I) * k * m / N)) *
        Complex.exp (2 * Real.pi * Complex.I * k * n / N) =
      ∑ m in Finset.range N,
        v m * (Complex.exp (-(2 * Real.pi * Complex.I) * k * m / N) *
          Complex.exp (2 * Real.pi * Complex.I * k * n / N)) := by
    intro k
    rw [Finset.sum_mul]
    exact Finset.sum_congr rfl (fun m _ => by ring)
  simp_rw [step1]
  rw [Finset.sum_comm]
  have step2 : ∀ m ∈ Finset.range N,
      (∑ k in Finset.range N,
        v m * (Complex.exp (-(2 * Real.pi * Complex.I) * k * m / N) *
          Complex.exp (2 * Real.pi * Complex.I * k * n / N))) =
      v m * (if n = m then (N : ℂ) else 0) := by
    intro m hm
    rw [← Finset.mul_sum, dft_orthogonality N hN n m hn (Finset.mem_range.mp hm)]
  rw [Finset.sum_congr rfl step2]
  have step3 : ∀ m : ℕ, v m * (if n = m then (N : ℂ) else 0) =
      if m = n then v m * N else 0 := by
    intro m
    by_cases h : n = m
    · rw [if_pos h, if_pos h.symm]
    · rw [if_neg h, if_neg (fun hh => h hh.symm), mul_zero]
  simp_rw [step3]
  rw [Finset.sum_ite_eq' (Finset.range N) n (fun m => v m * N), if_pos (Finset.mem_range.mpr hn)]
  rw [mul_div_assoc, div_self hNC, mul_one]

lemma dft_real_conj (N : ℕ) (hN : 0 < N) (v : ℕ → ℝ) (k : ℕ) (hk : k ≤ N) :
    (starRingEnd ℂ) (dftPoint N (fun n => ((v n : ℝ) : ℂ)) (N - k)) =
      dftPoint N (fun n => ((v n : ℝ) : ℂ)) k := by
  have hNC : (N : ℂ) ≠ 0 := Nat.cast_ne_zero.mpr hN.ne'
  unfold dftPoint
  rw [map_sum]
  refine Finset.sum_congr rfl (fun n _ => ?_)
  rw [map_mul, Complex.conj_ofReal]
  congr 1
  rw [← Complex.exp_conj]
  have hconj : (starRingEnd ℂ) (-(2 * Real.pi * Complex.I) * ((N - k : ℕ) : ℂ) * n / N) =
      (2 * Real.pi * Complex.I) * ((N - k : ℕ) : ℂ) * n / N := by
    simp only [map_div₀, map_mul, map_neg, Complex.conj_I, Complex.conj_ofReal, map_natCast,
      map_ofNat]
    ring
  rw [hconj]
  have hcast : ((N - k : ℕ) : ℂ) = (N : ℂ) - k := by push_cast [hk]; ring
  rw [hcast]
  have hsplit : 2 * Real.pi * Complex.I * ((N : ℂ) - k) * n / N =
      ((n : ℤ) : ℂ) * (2 * Real.pi * Complex.I) + -(2 * Real.pi * Complex.I) * k * n / N := by
    push_cast
    field_simp
    ring
  rw [hsplit, Complex.exp_add, Complex.exp_int_mul_two_pi_mul_I, one_mul]

lemma fullSpec_dft (N : ℕ) (hN : 0 < N) (v : ℕ → ℝ) (k : ℕ) (hk : k < N) :
    fullSpec N (fun j => dftPoint N (fun n => ((v n : ℝ) : ℂ)) j) k =
      dftPoint N (fun n => ((v n : ℝ) : ℂ)) k := by
  unfold fullSpec
  by_cases hle : k ≤ N / 2
  · rw [if_pos hle]
  · rw [if_neg hle]
    exact dft_real_conj N hN v k hk.le

lemma iframe_roundtrip (N hop : ℕ) (hN : 0 < N) (w : ℕ → ℝ) (L : ℕ) (x : ℕ → ℝ)
    (m n : ℕ) (hn : n < N) :
    iframe N (stftMat N hop w L x) m n = stftFrame N hop w L x m n := by
  unfold iframe stftMat
  have h2 : idftPoint N
      (fullSpec N (fun k => dftPoint N (fun j => ((stftFrame N hop w L x m j : ℝ) : ℂ)) k)) n =
      idftPoint N (fun k => dftPoint N (fun j => ((stftFrame N hop w L x m j : ℝ) : ℂ)) k) n := by
    unfold idftPoint
    congr 1
    refine Finset.sum_congr rfl (fun k hk => ?_)
    rw [fullSpec_dft N hN _ k (Finset.mem_range.mp hk)]
  rw [h2, idft_dft N hN _ n hn, Complex.ofReal_re]

lemma olaNum_eq (N hop : ℕ) (hN : 0 < N) (w : ℕ → ℝ) (L T : ℕ) (x : ℕ → ℝ) (t : ℕ) :
    olaNum N hop w T (stftMat N hop w L x) t =
      reflectPadFn L x (N / 2) t * olaDen N hop w T t := by
  unfold olaNum olaDen
  rw [Finset.mul_sum]
  refine Finset.sum_congr rfl (fun m _ => ?_)
  by_cases hg : m * hop ≤ t ∧ t - m * hop < N
  · rw [if_pos hg, if_pos hg, iframe_roundtrip N hop hN w L x m _ hg.2]
    unfold stftFrame
    rw [Nat.add_sub_cancel' hg.1]
    ring
  · rw [if_neg hg, if_neg hg, mul_zero]

lemma olaDen_rect (N win hop T t : ℕ) :
    olaDen N hop (rectWindow N win) T t = (coverCount N win hop T t : ℝ) := by
  unfold olaDen coverCount rectWindow
  rw [Finset.card_filter]
  push_cast
  refine Finset.sum_congr rfl (fun m _ => ?_)
  by_cases hg : m * hop ≤ t ∧ t - m * hop < N
  · rw [if_pos hg]
    by_cases hw : (N - win) / 2 ≤ t - m * hop ∧ t - m * hop < (N - win) / 2 + win
    · rw [if_pos hw, if_pos ⟨hg, hw⟩]
      norm_num
    · rw [if_neg hw, if_neg (fun hc => hw hc.2)]
      norm_num
  · rw [if_neg hg, if_neg (fun hc => hg hc.1)]

lemma cover_pos (N win hop L t : ℕ) (hhop : 0 < hop) (hwin : hop ≤ win) (hnf : win ≤ N)
    (hL : N / 2 < L) (htlo : N / 2 ≤ t)
    (hthi : t < N / 2 + istftLen N hop (numFrames N hop L)) :
    0 < coverCount N win hop (numFrames N hop L) t := by
  rw [coverCount, Finset.card_pos]
  have hplle : (N - win) / 2 ≤ N / 2 := Nat.div_le_div_right (Nat.sub_le N win)
  have hkey : N - N / 2 ≤ (N - win) / 2 + win := by omega
  have hplwin : (N - win) / 2 + win ≤ N := by omega
  have hplt : (N - win) / 2 ≤ t := le_trans hplle htlo
  have hdm : hop * ((t - (N - win) / 2) / hop) + (t - (N - win) / 2) % hop =
      t - (N - win) / 2 := Nat.div_add_mod _ hop
  have hr : (t - (N - win) / 2) % hop < hop := Nat.mod_lt _ hhop
  have hc1 : hop * ((t - (N - win) / 2) / hop) = ((t - (N - win) / 2) / hop) * hop :=
    Nat.mul_comm _ _
  by_cases hq : (t - (N - win) / 2) / hop < numFrames N hop L
  · exact ⟨(t - (N - win) / 2) / hop,
      Finset.mem_filter.mpr ⟨Finset.mem_range.mpr hq, by omega⟩⟩
  · push_neg at hq
    have hTd : numFrames N hop L * hop ≤ t - (N - win) / 2 :=
      (Nat.le_div_iff_mul_le hhop).mp hq
    have hT1 : numFrames N hop L = 1 + (L + 2 * (N / 2) - N) / hop := rfl
    have hpos : 0 < numFrames N hop L := by
      rw [hT1]
      exact lt_of_lt_of_le one_pos (Nat.le_add_right 1 _)
    have hc2 : numFrames N hop L * hop = (numFrames N hop L - 1) * hop + hop := by
      obtain ⟨T0, hT0⟩ := Nat.exists_eq_add_of_le hpos
      rw [hT0]
      rw [Nat.add_sub_cancel_left]
      ring
    have hc3 : hop * (numFrames N hop L - 1) = (numFrames N hop L - 1) * hop :=
      Nat.mul_comm _ _
    simp only [istftLen] at hthi
    exact ⟨numFrames N hop L - 1,
      Finset.mem_filter.mpr ⟨Finset.mem_range.mpr (by omega), by omega⟩⟩

lemma istftLen_le (N hop L : ℕ) (hhop : 0 < hop) (hL : N / 2 < L) :
    istftLen N hop (numFrames N hop L) ≤ L := by
  have h1 : (L + 2 * (N / 2) - N) / hop * hop ≤ L + 2 * (N / 2) - N :=
    Nat.div_mul_le_self _ _
  simp only [istftLen, numFrames]
  obtain ⟨C, hC⟩ : ∃ C, (L + 2 * (N / 2) - N) / hop = C := ⟨_, rfl⟩
  rw [hC] at h1 ⊢
  have h3 : 1 + C - 1 = C := by omega
  rw [h3]
  obtain ⟨D, hD⟩ : ∃ D, hop * C = D := ⟨_, rfl⟩
  rw [hD]
  rw [Nat.mul_comm C hop, hD] at h1
  omega

theorem stft_istft_interior_exact (N win hop L : ℕ) (x : ℕ → ℝ)
    (hhop : 0 < hop) (hwin : hop ≤ win) (hnf : win ≤ N) (hL : N / 2 < L)
    (S : ℕ → ℕ → ℂ) (hS : _stft N win hop L x = some S)
    (t : ℕ) (ht : t < istftLen N hop (numFrames N hop L)) :
    _istft N win hop (numFrames N hop L) S t = x t := by
  have hN : 0 < N := lt_of_lt_of_le (lt_of_lt_of_le hhop hwin) hnf
  have hSe : S = stftMat N hop (rectWindow N win) L x := by
    unfold _stft at hS
    rw [if_pos hL] at hS
    exact (Option.some.inj hS).symm
  subst hSe
  unfold _istft istftFn
  rw [olaNum_eq N hop hN (rectWindow N win) L (numFrames N hop L) x (t + N / 2)]
  have hcov := cover_pos N win hop L (t + N / 2) hhop hwin hnf hL (by omega) (by omega)
  rw [olaDen_rect]
  have hden : (0 : ℝ) < (coverCount N win hop (numFrames N hop L) (t + N / 2) : ℝ) := by
    exact_mod_cast hcov
  rw [mul_div_assoc, div_self hden.ne', mul_one]
  unfold reflectPadFn reflIdx
  have htL : t < L := lt_of_lt_of_le ht (istftLen_le N hop L hhop hL)
  have h1 : ((t + N / 2 : ℕ) : ℤ) - ((N / 2 : ℕ) : ℤ) = (t : ℤ) := by push_cast; ring
  rw [h1]
  rw [if_neg (by omega), if_neg (by push_cast; omega)]
  simp

theorem stft_len400_fails :
    _stft 1025 400 160 400 (fun _ => (1 : ℝ)) = none := by
  unfold _stft
  rw [if_neg (by norm_num)]

theorem stft_istft_interior_exact_witness :
    _istft 5 4 2 (numFrames 5 2 3) (stftMat 5 2 (rectWindow 5 4) 3 (fun u => (u : ℝ))) 0 = 0 := by
  have h := stft_istft_interior_exact 5 4 2 3 (fun u => (u : ℝ)) (by norm_num) (by norm_num)
    (by norm_num) (by norm_num) _ (by unfold _stft; rw [if_pos (by norm_num)]) 0
    (by norm_num [istftLen, numFrames])
  simpa using h

theorem fed_value_is_magnitude (coeff : ℝ) (win hop L : ℕ) (x : ℕ → ℝ) (k m : ℕ) :
    forwardFedValue coeff win hop L x k m =
      Complex.abs (stftMat EAF_n_fft hop (hannPadded EAF_n_fft win) L
        (_preemphasis coeff x) k m) := by
  unfold forwardFedValue to_specgram
  exact Real.sqrt_sq (Complex.abs.nonneg _)

lemma preemph_zero_const : _preemphasis 0 (fun _ => (1:ℝ)) = fun _ => (1:ℝ) := by
  funext u
  unfold _preemphasis
  by_cases h : u = 0 <;> simp [h]

lemma hann_sum_400 : ∑ n in Finset.range 1025, hannPadded 1025 400 n = 200 := by
  have hsub : Finset.Ico 312 712 ⊆ Finset.range 1025 := by
    intro n hn
    rw [Finset.mem_Ico] at hn
    exact Finset.mem_range.mpr (by omega)
  have hsupp : ∀ n ∈ Finset.range 1025, n ∉ Finset.Ico 312 712 →
      hannPadded 1025 400 n = 0 := by
    intro n _ hn
    unfold hannPadded
    rw [if_neg]
    intro hcon
    obtain ⟨h1, h2⟩ := hcon
    norm_num at h1 h2
    exact hn (Finset.mem_Ico.mpr ⟨h1, h2⟩)
  rw [← Finset.sum_subset hsub hsupp]
  rw [Finset.sum_Ico_eq_sum_range]
  have hval : ∀ i ∈ Finset.range (712 - 312), hannPadded 1025 400 (312 + i) =
      1 / 2 - 1 / 2 * Real.cos (2 * Real.pi * i / 400) := by
    intro i hi
    have hi4 : i < 400 := by
      have := Finset.mem_range.mp hi
      omega
    unfold hannPadded
    rw [if_pos (by norm_num; omega)]
    norm_num
    ring
  rw [Finset.sum_congr rfl hval]
  rw [Finset.sum_sub_distrib, Finset.sum_const, ← Finset.mul_sum]
  have hcos : ∑ i in Finset.range (712 - 312), Real.cos (2 * Real.pi * i / 400) = 0 := by
    have h1 : ∀ i : ℕ, Real.cos (2 * Real.pi * i / 400) =
        (Complex.exp (2 * Real.pi * Complex.I * 1 * i / 400)).re := by
      intro i
      rw [show (2 * (Real.pi : ℂ) * Complex.I * 1 * (i : ℂ) / 400) =
          ((2 * Real.pi * i / 400 : ℝ) : ℂ) * Complex.I by push_cast; ring]
      rw [Complex.exp_ofReal_mul_I_re]
    simp_rw [h1]
    rw [← Complex.re_sum]
    have hkey := sum_exp_rootsOfUnity 400 (by norm_num) 1
    push_cast at hkey
    rw [show (712 - 312 : ℕ) = 400 from by norm_num, hkey]
    rw [if_neg (by norm_num)]
    simp
  rw [hcos]
  norm_num

lemma hann_dc_bin :
    stftMat EAF_n_fft 160 (hannPadded EAF_n_fft 400) 513 (fun _ => (1:ℝ)) 0 0 =
      ((200 : ℝ) : ℂ) := by
  unfold stftMat dftPoint
  have hterm : ∀ n ∈ Finset.range EAF_n_fft,
      ((stftFrame EAF_n_fft 160 (hannPadded EAF_n_fft 400) 513 (fun _ => (1:ℝ)) 0 n : ℝ) : ℂ) *
        Complex.exp (-(2 * Real.pi * Complex.I) * ((0:ℕ) : ℂ) * (n : ℂ) / (EAF_n_fft : ℂ)) =
      ((hannPadded 1025 400 n : ℝ) : ℂ) := by
    intro n _
    have hx : stftFrame EAF_n_fft 160 (hannPadded EAF_n_fft 400) 513 (fun _ => (1:ℝ)) 0 n =
        hannPadded 1025 400 n := by
      unfold stftFrame reflectPadFn
      simp [EAF_n_fft]
    rw [hx]
    rw [show (-(2 * (Real.pi : ℂ) * Complex.I) * ((0:ℕ) : ℂ) * (n : ℂ) / (EAF_n_fft : ℂ)) =
        0 by push_cast; ring]
    rw [Complex.exp_zero, mul_one]
  rw [Finset.sum_congr rfl hterm]
  rw [← Complex.ofReal_sum]
  rw [show (EAF_n_fft : ℕ) = 1025 from rfl, hann_sum_400]

theorem fed_value_not_power :
    forwardFedValue 0 400 160 513 (fun _ => (1:ℝ)) 0 0 = 200 ∧
    Complex.abs (stftMat EAF_n_fft 160 (hannPadded EAF_n_fft 400) 513
      (_preemphasis 0 (fun _ => (1:ℝ))) 0 0) ^ 2 = 40000 ∧
    (200 : ℝ) ≠ 40000 := by
  have habs : Complex.abs (stftMat EAF_n_fft 160 (hannPadded EAF_n_fft 400) 513
      (_preemphasis 0 (fun _ => (1:ℝ))) 0 0) = 200 := by
    rw [preemph_zero_const, hann_dc_bin, Complex.abs_ofReal]
    norm_num
  refine ⟨?_, ?_, by norm_num⟩
  · unfold forwardFedValue to_specgram
    rw [show Complex.abs (stftMat EAF_n_fft 160 (hannPadded EAF_n_fft 400) 513
        (_preemphasis 0 (fun _ => (1:ℝ))) 0 0) = 200 from habs]
    rw [Real.sqrt_sq (by norm_num)]
  · rw [habs]
    norm_num

lemma foldl_range_iterate {α : Type} (f : α → α) (s : α) (n : ℕ) :
    (List.range n).foldl (fun a _ => f a) s = f^[n] s := by
  induction n with
  | zero => simp
  | succ n ih =>
      rw [List.range_succ, List.foldl_append, ih, Function.iterate_succ_apply']
      simp

theorem griffin_lim_thirty_iterations (n_fft win hop Tm : ℕ)
    (specgram phase0 : ℕ → ℕ → ℝ) :
    _griffin_lim n_fft win hop Tm specgram phase0 =
      (glStep n_fft win hop (fun k m => |specgram k m|))^[30]
        (some (istftLen n_fft hop Tm,
          _istft n_fft win hop Tm (_to_complex (fun k m => |specgram k m|) phase0))) := by
  unfold _griffin_lim
  exact foldl_range_iterate _ _ 30

theorem griffin_lim_budget_mismatch :
    GRIFFIN_LIM_ITER = 50 ∧ GRIFFIN_LIM_ITER ≠ 30 :=
  ⟨rfl, by norm_num [GRIFFIN_LIM_ITER]⟩
